import Mathlib

/-!
# nerved: file synchronisation, terminal dispatch, stream filter, directory listing

A shallow embedding of `main.go` of the `nerved` desktop shell and the
properties of it that are stated in the specification.

Conventions of the embedding.

* A Go `[]byte` (file content, text buffer content) is a `List UInt8`.
* A Go `string` that the code treats as text (the terminal transcript, names of
  directory entries, read chunks given to the regular expressions) is a
  `List Char`; every operation the code applies to such a string is applied
  here element by element, which is what Go does on ASCII text where one
  character is one byte.
* A Go `int` is an `Int`; the only arithmetic on it is `selS - 1` and
  `LastIndexByte(..) + 1`, which do not reach the 64-bit limits for offsets into
  a string.
* A run-time panic (index out of range, `check(err)`) is `Except.error`.
* The outcome of a system call (disk read, disk write) is an argument of the
  function that makes the call.
-/

namespace Nerved

/-! ## Fingerprint -/

/-- Go `[]byte`. -/
abbrev Bytes := List UInt8

/-- The table `"0123456789abcdef"` of `encoding/hex`. -/
def hextable : List Char := "0123456789abcdef".data

/-- One hexadecimal digit, `hextable[n]`. -/
def hexDigit (n : Nat) : Char := hextable.getD n '0'

/-- Go `hex.EncodeToString`: two digits per byte, high nibble first. -/
def hexEncode : Bytes → List Char
  | [] => []
  | b :: bs => hexDigit (b.toNat / 16) :: hexDigit (b.toNat % 16) :: hexEncode bs

/-- The SHA-256 digest of the empty input, which is the current hash of a digest
that `sha256.New()` has just created and nothing was written to. -/
def sha256Empty : Bytes :=
  [0xe3, 0xb0, 0xc4, 0x42, 0x98, 0xfc, 0x1c, 0x14, 0x9a, 0xfb, 0xf4, 0xc8,
   0x99, 0x6f, 0xb9, 0x24, 0x27, 0xae, 0x41, 0xe4, 0x64, 0x9b, 0x93, 0x4c,
   0xa4, 0x95, 0x99, 0x1b, 0x78, 0x52, 0xb8, 0x55]

/-- Go `sha256.New().Sum(bs)`: `Sum` appends the current hash to its argument and
returns the resulting slice; nothing was written to the new digest, so the
current hash is that of the empty input. -/
def sha256NewSum (bs : Bytes) : Bytes := bs ++ sha256Empty

/-- The fingerprint of `main.go`, `hex.EncodeToString(sha256.New().Sum(bs))`
(lines 122, 132 and 269). -/
def fingerprint (bs : Bytes) : List Char := hexEncode (sha256NewSum bs)

/-! ## Application state -/

/-- A run-time panic of the Go program. -/
inductive Panic where
  | indexOutOfRange (index : Int) (length : Nat)
  | sliceOutOfRange (low high : Int) (length : Nat)
  | checkFailed (err : List Char)
  deriving DecidableEq, Repr

/-- The fields of `App` that the modelled functions use. `textEditor` is the
text held by the editor widget `a.textEditor` (what `Text()` returns and
`SetText` replaces). -/
structure App where
  /-- Field `files`: the directory listing. -/
  files : List (List Char)
  /-- Field `filePath`: the path of the open file, `""` when none is open. -/
  filePath : List Char
  /-- Field `fileChecksum`: the last known fingerprint. -/
  fileChecksum : List Char
  /-- Field `termLast`: the caret position of the last dispatch. -/
  termLast : Int
  /-- The text of `a.textEditor`. -/
  textEditor : Bytes
  deriving DecidableEq, Repr

/-- What a function did to the world outside `App`, in program order. -/
inductive Effect where
  /-- The call `os.WriteFile(path, bs, 0644)` was made. -/
  | writeFile (path : List Char) (bs : Bytes)
  /-- The call `os.ReadFile(path)` was made. -/
  | readFile (path : List Char)
  /-- The call `a.textEditor.SetText(string(bs))` was made. -/
  | setText (bs : Bytes)
  /-- The call `a.termWrite(text)` was made. -/
  | termWrite (text : List Char)
  deriving DecidableEq, Repr

/-- An effect that is a disk write. -/
def Effect.isWrite : Effect → Bool
  | .writeFile _ _ => true
  | _ => false

/-- An effect that is a disk read. -/
def Effect.isRead : Effect → Bool
  | .readFile _ => true
  | _ => false

/-- An effect that replaces the text buffer. -/
def Effect.isSetText : Effect → Bool
  | .setText _ => true
  | _ => false

/-! ## File synchronisation -/

/-- The result of one pass of the sync loop: the application state, the content
of the file on disk and the calls made. -/
structure PassResult where
  app : App
  disk : Bytes
  effects : List Effect
  deriving DecidableEq, Repr

/-- One pass of the file part of the sync loop of `App.Run` (lines 120 to 139).
`disk` is the content of the file at `a.filePath` when the pass starts.
`writeErr` is the outcome of `os.WriteFile` should the pass call it (`none`: the
write succeeds and the file holds the bytes written; `some msg`: it fails with
`err.Error() = msg` and the file is left as it was). `readOk` is the outcome of
`os.ReadFile` should the pass call it (`true`: it returns the content of the
file; `false`: it fails). -/
def App.runPass (a : App) (disk : Bytes) (writeErr : Option (List Char)) (readOk : Bool) :
    PassResult :=
  if a.filePath ≠ [] then
    let bs := a.textEditor
    let sum := fingerprint bs
    if sum ≠ a.fileChecksum then
      match writeErr with
      | some msg =>
        { app := a, disk := disk,
          effects := [.writeFile a.filePath bs,
                      .termWrite ("err writing: ".data ++ msg ++ "\n".data)] }
      | none =>
        { app := { a with fileChecksum := sum }, disk := bs,
          effects := [.writeFile a.filePath bs] }
    else
      if readOk then
        let bs := disk
        let sum := fingerprint bs
        if sum ≠ a.fileChecksum then
          { app := { a with fileChecksum := sum, textEditor := bs }, disk := disk,
            effects := [.readFile a.filePath, .setText bs] }
        else
          { app := a, disk := disk, effects := [.readFile a.filePath] }
      else
        { app := a, disk := disk, effects := [.readFile a.filePath] }
  else
    { app := a, disk := disk, effects := [] }

/-- Go `strings.Replace(s, "\t", "  ", -1)` on the bytes of `s`: every tab byte
becomes two space bytes. -/
def replaceTabs : Bytes → Bytes
  | [] => []
  | b :: bs => if b = 0x09 then 0x20 :: 0x20 :: replaceTabs bs else b :: replaceTabs bs

/-- Function `App.loadFile` (lines 264 to 273). `path` is the value of
`filepath.Join(a.dir, file)`; `read` is the outcome of `os.ReadFile(path)`: the
content of the file, or the text of the error. -/
def App.loadFile (a : App) (path : List Char) (read : Except (List Char) Bytes) :
    Except Panic App :=
  match read with
  | .error msg => .error (.checkFailed msg)
  | .ok bs =>
    let text := replaceTabs bs
    let sum := fingerprint text
    .ok { a with fileChecksum := sum, filePath := path, textEditor := text }

/-- The fingerprint binding invariant of the specification: the last known
fingerprint is that of the bytes on disk or that of the bytes in the buffer. -/
def FingerprintBound (a : App) (disk : Bytes) : Prop :=
  a.fileChecksum = fingerprint disk ∨ a.fileChecksum = fingerprint a.textEditor

instance (a : App) (disk : Bytes) : Decidable (FingerprintBound a disk) := by
  unfold FingerprintBound; infer_instance

/-! ## Terminal dispatch -/

/-- Go `t[i]` on a string: panics unless `0 ≤ i < len(t)`. -/
def goIndex (t : List Char) (i : Int) : Except Panic Char :=
  if 0 ≤ i ∧ i < t.length then .ok (t.getD i.toNat ' ')
  else .error (.indexOutOfRange i t.length)

/-- Go `t[lo:hi]` on a string: panics unless `0 ≤ lo ≤ hi ≤ len(t)`. -/
def goSlice (t : List Char) (lo hi : Int) : Except Panic (List Char) :=
  if 0 ≤ lo ∧ lo ≤ hi ∧ hi ≤ t.length then .ok ((t.take hi.toNat).drop lo.toNat)
  else .error (.sliceOutOfRange lo hi t.length)

/-- Go `strings.LastIndexByte(s, c)`: the index of the last `c` in `s`, or `-1`. -/
def lastIndexByte : List Char → Char → Int
  | [], _ => -1
  | x :: xs, c =>
    let r := lastIndexByte xs c
    if 0 ≤ r then r + 1 else if x = c then 0 else -1

/-- Go `strings.HasPrefix(s, prefix)`. -/
def hasPrefix : List Char → List Char → Bool
  | _, [] => true
  | [], _ :: _ => false
  | x :: xs, p :: ps => x = p && hasPrefix xs ps

/-- The terminal part of `App.Update` (lines 167 to 177). `events` is
`len(a.termEditor.Events())`, `t` is `a.termEditor.Text()` and `selS`, `selE` are
the two results of `a.termEditor.Selection()`. The second component of the result
is the argument of the call `a.termRun(..)` when the call is made, and `none`
when it is not. -/
def App.Update (a : App) (events : Nat) (t : List Char) (selS selE : Int) :
    Except Panic (App × Option (List Char)) :=
  if events > 0 then
    if selS = selE ∧ t.length > 0 then do
      let ch ← goIndex t (selS - 1)
      if ch = '\n' ∧ selS ≠ a.termLast then do
        let before ← goSlice t 0 (selS - 1)
        let line ← goSlice t (max 0 (lastIndexByte before '\n' + 1)) (selS - 1)
        if hasPrefix line "$".data then do
          let cmd ← goSlice line 1 line.length
          pure ({ a with termLast := selS }, some cmd)
        else pure (a, none)
      else pure (a, none)
    else pure (a, none)
  else pure (a, none)

/-- The value `&App{}` that `NewApp` starts from (line 72), on the modelled
fields: no file open, `termLast` zero. `NewApp` assigns none of the fields that
`Update` reads. -/
def App.zero : App :=
  { files := [], filePath := [], fileChecksum := [], termLast := 0, textEditor := [] }

/-! ## Stream filter -/

/-- The syntax of the regular expressions of `main.go`, as Go's `regexp/syntax`
parses them. A class is a list of inclusive ranges. Repetition and option are
greedy, as they are written in the source. -/
inductive Regex where
  /-- The empty expression. -/
  | eps
  /-- A character class `[..]`, or a literal (a class of one character). -/
  | cls (ranges : List (Char × Char))
  /-- The expression `.`: any character but the newline. -/
  | dot
  /-- Concatenation. -/
  | cat (r s : Regex)
  /-- Alternation `r|s`, the left branch preferred. -/
  | alt (r s : Regex)
  /-- Greedy `r*`. -/
  | star (r : Regex)
  /-- Greedy `r?`. -/
  | opt (r : Regex)
  deriving Repr

/-- Membership of a character in a class. -/
def inClass (ranges : List (Char × Char)) (c : Char) : Bool :=
  ranges.any (fun r => r.1.toNat ≤ c.toNat && c.toNat ≤ r.2.toNat)

/-- Greedy `r{0,n}`, which the library reads as `(r(r(..)?)?)?`. -/
def Regex.upTo (r : Regex) : Nat → Regex
  | 0 => .eps
  | n + 1 => .opt (.cat r (r.upTo n))

/-- The loop of a greedy star: one more iteration of the body is tried before
leaving the loop; an iteration that consumes nothing is not repeated. `fuel`
bounds the number of iterations and is the length of the input. -/
def starLoop (body : List Char → (List Char → Option (List Char)) → Option (List Char)) :
    Nat → List Char → (List Char → Option (List Char)) → Option (List Char)
  | 0, s, k => k s
  | fuel + 1, s, k =>
    match body s (fun s1 => if s1.length < s.length then starLoop body fuel s1 k else none) with
    | some rest => some rest
    | none => k s

/-- Backtracking match of `r` at the start of `s`, in the order of preference of
Go's `regexp` (leftmost-first: the match a backtracking search finds first).
`k` is what remains to be matched after `r`; the result is the input left after
the whole match. -/
def Regex.run : Regex → List Char → (List Char → Option (List Char)) → Option (List Char)
  | .eps, s, k => k s
  | .cls ranges, s, k =>
    match s with
    | c :: cs => if inClass ranges c then k cs else none
    | [] => none
  | .dot, s, k =>
    match s with
    | c :: cs => if c ≠ '\n' then k cs else none
    | [] => none
  | .cat r1 r2, s, k => r1.run s (fun s1 => r2.run s1 k)
  | .alt r1 r2, s, k =>
    match r1.run s k with
    | some rest => some rest
    | none => r2.run s k
  | .star r, s, k => starLoop r.run s.length s k
  | .opt r, s, k =>
    match r.run s k with
    | some rest => some rest
    | none => k s

/-- The match of `re` that starts at the first character of `s`, if there is one:
the input left after it. -/
def Regex.matchAt (re : Regex) (s : List Char) : Option (List Char) := re.run s some

/-- Go `re.ReplaceAllString(src, "")`: every match, found from left to right and
not overlapping the one before, is removed. `skip` is the number of characters
of `s` that belong to the match in progress. -/
def Regex.removeAll (re : Regex) : Nat → List Char → List Char
  | _, [] => []
  | skip + 1, _ :: cs => re.removeAll skip cs
  | 0, c :: cs =>
    match re.matchAt (c :: cs) with
    | some rest =>
      let n := (c :: cs).length - rest.length
      if n = 0 then c :: re.removeAll 0 cs else re.removeAll (n - 1) cs
    | none => c :: re.removeAll 0 cs

/-- Go `re.ReplaceAllString(src, "")`. -/
def Regex.ReplaceAllString (re : Regex) (src : List Char) : List Char := re.removeAll 0 src

/-- The class `\d`. -/
def digit : Regex := .cls [('0', '9')]

/-- The class `[a-zA-Z\d]`. -/
def alnum : Regex := .cls [('a', 'z'), ('A', 'Z'), ('0', '9')]

/-- The literal `;`. -/
def semi : Regex := .cls [(';', ';')]

/-- The first branch of `ansi`: `(?:(?:[a-zA-Z\d]*(?:;[a-zA-Z\d]*)*)?\u0007)`. -/
def ansiBel : Regex :=
  .cat (.opt (.cat (.star alnum) (.star (.cat semi (.star alnum))))) (.cls [('\x07', '\x07')])

/-- The second branch of `ansi`:
`(?:(?:\d{1,4}(?:;\d{0,4})*)?[\dA-PRZcf-ntqry=><~])`. -/
def ansiFinal : Regex :=
  .cat (.opt (.cat (.cat digit (digit.upTo 3)) (.star (.cat semi (digit.upTo 4)))))
    (.cls [('0', '9'), ('A', 'P'), ('R', 'R'), ('Z', 'Z'), ('c', 'c'), ('f', 'n'), ('t', 't'),
           ('q', 'q'), ('r', 'r'), ('y', 'y'), ('=', '='), ('>', '>'), ('<', '<'), ('~', '~')])

/-- The expression `ansiRe` (lines 40 and 42):
`[\u001B\u009B][[\]()#;?]*(?:` first branch `|` second branch `)`. -/
def ansiRe : Regex :=
  .cat (.cls [('\x1b', '\x1b'), ('\u009b', '\u009b')])
    (.cat (.star (.cls [('[', '['), (']', ']'), ('(', '('), (')', ')'), ('#', '#'), (';', ';'),
                        ('?', '?')]))
      (.alt ansiBel ansiFinal))

/-- The expression `backspaceRe` (line 43): `.` followed by the backspace
character, which is what `"\b"` is in a Go string. -/
def backspaceRe : Regex := .cat .dot (.cls [('\x08', '\x08')])

/-- What `termRun` does to each chunk it has read (lines 299 and 300, 317 and
318) before it writes it to the transcript. -/
def filterChunk (chunk : List Char) : List Char :=
  backspaceRe.ReplaceAllString (ansiRe.ReplaceAllString chunk)

/-- Printable ASCII: the characters from the space to the tilde. -/
def Printable (c : Char) : Prop := 0x20 ≤ c.toNat ∧ c.toNat ≤ 0x7e

instance (c : Char) : Decidable (Printable c) := by unfold Printable; infer_instance

/-! ## Directory listing -/

/-- Go `x < y` on strings: lexicographic order, character by character, a proper
prefix first. -/
def strLess : List Char → List Char → Bool
  | [], [] => false
  | [], _ :: _ => true
  | _ :: _, [] => false
  | x :: xs, y :: ys =>
    if x.toNat < y.toNat then true
    else if y.toNat < x.toNat then false
    else strLess xs ys

/-- The value `string(filepath.Separator)` where the program runs on a Unix
system. -/
def separator : List Char := "/".data

/-- Go `strings.HasSuffix(name, string(filepath.Separator))`: the separator is one
character, so the test is on the last character of the name. -/
def hasSuffixSeparator (name : List Char) : Bool := name.getLast? = some '/'

/-- The comparison function given to `sort.Slice` in `loadDir` (lines 253 to
260), on the two names it compares. -/
def lessFiles (x y : List Char) : Bool :=
  let iDir := hasSuffixSeparator x
  let jDir := hasSuffixSeparator y
  if iDir && jDir then strLess x y else iDir

/-- The inner loop of the insertion sort of Go's `sort` package: the element `x`
that follows a sorted run moves left while it is less than its left neighbour.
The run is given, and returned, last element first. -/
def sinkLeft {α : Type} (less : α → α → Bool) (x : α) : List α → List α
  | [] => [x]
  | y :: ys => if less x y then y :: sinkLeft less x ys else x :: y :: ys

/-- The function `insertionSort` of Go's `sort` package: for each element from
left to right, the inner loop above. -/
def insertionSort {α : Type} (less : α → α → Bool) (xs : List α) : List α :=
  (xs.foldl (fun run x => sinkLeft less x run) []).reverse

/-- The length up to which `sort.Slice` is `insertionSort` and nothing else in
every release of the library that has `os.ReadDir` (up to 12 elements it is
`insertionSort` from Go 1.19, and `insertionSort` after a pass that swaps
elements 6 apart before). -/
def insertionLimit : Nat := 6

/-- Go `sort.Slice`. On a slice of at most `insertionLimit` elements it is the
insertion sort of the package. On a longer slice the library runs a quicksort
that is not stable and differs between releases; it is not embedded, and
`quick` stands for what it returns. -/
def sortSlice {α : Type} (quick : List α → List α) (less : α → α → Bool) (xs : List α) :
    List α :=
  if xs.length ≤ insertionLimit then insertionSort less xs else quick xs

/-- One `os.DirEntry`: what `Name()` and `IsDir()` return. -/
structure DirEntry where
  name : List Char
  isDir : Bool
  deriving DecidableEq, Repr

/-- The name `loadDir` lists for an entry (lines 247 to 250). -/
def DirEntry.listed (f : DirEntry) : List Char :=
  if f.isDir then f.name ++ separator else f.name

/-- Function `App.loadDir` (lines 235 to 262), `read` being the outcome of
`os.ReadDir(a.dir)`: the entries, which the library returns sorted by file
name, or the text of the error. `quick` is what the library's sort returns on a
listing longer than `insertionLimit`. -/
def App.loadDir (a : App) (quick : List (List Char) → List (List Char))
    (read : Except (List Char) (List DirEntry)) : Except Panic App :=
  match read with
  | .error msg => .error (.checkFailed msg)
  | .ok fs =>
    let files := ("..".data ++ separator) :: fs.map DirEntry.listed
    .ok { a with files := sortSlice quick lessFiles files }

/-- A list of names in ascending order of `strLess`: no name is less than one
before it. -/
def Ascending (names : List (List Char)) : Prop :=
  names.Pairwise (fun x y => strLess y x = false)

/-- The order the specification gives the listing, on the entries `fs` read:
the parent entry, the directories in ascending order, the files in ascending
order. -/
def SpecListing (fs : List DirEntry) (listing : List (List Char)) : Prop :=
  ∃ dirs files : List (List Char),
    listing = ("..".data ++ separator) :: (dirs ++ files) ∧
    dirs.Perm ((fs.filter (fun f => f.isDir)).map DirEntry.listed) ∧
    files.Perm ((fs.filter (fun f => !f.isDir)).map DirEntry.listed) ∧
    Ascending dirs ∧ Ascending files

/-! ## Process sessions

The activities that `termRun` starts run concurrently with the caller. They
are embedded as a transition system: a state holds the shared field `termCmd`,
the place each reader of each session has reached, and the writes made to the
transcript; a step runs one activity up to its next access to shared state or
blocking call. -/

/-- The place a reader goroutine of `termRun` has reached. -/
inductive ReaderAt where
  /-- At the top of the loop, before `if a.termCmd != cmd` (lines 293, 310). -/
  | check
  /-- Inside `Read` (lines 297, 315). -/
  | reading
  /-- After `Read` returned `n` bytes, the chunk, and `err == io.EOF` or not. -/
  | got (chunk : List Char) (eof : Bool)
  /-- Inside `cmd.Wait()` (line 326, standard output reader only). -/
  | waiting
  /-- Before `a.termWrite("$ ")` (line 330, standard output reader only). -/
  | prompt
  /-- Returned. -/
  | done
  deriving DecidableEq, Repr

/-- The two readers of a session. -/
inductive Stream where
  | stdout
  | stderr
  deriving DecidableEq, Repr

/-- What is recorded of a run: a session was started by `termRun`, or a reader of
a session wrote text to the transcript. -/
inductive Event where
  | started (cmd : Nat)
  | wrote (cmd : Nat) (stream : Stream) (text : List Char)
  deriving DecidableEq, Repr

/-- The shared state: field `termCmd` (the identity of the current `*exec.Cmd`,
`none` for `nil`), the readers of every session started, and the record in
program order. -/
structure Sessions where
  termCmd : Option Nat
  readers : List (Nat × Stream × ReaderAt)
  log : List Event
  deriving DecidableEq, Repr

/-- One step of the system. -/
inductive Action where
  /-- The call `termRun` by `Update`, `cmd.Start()` succeeding: lines 276 to 290
  and the start of the two readers. -/
  | termRun (cmd : Nat)
  /-- The reader evaluates the test at the top of its loop. -/
  | test (cmd : Nat) (stream : Stream)
  /-- The call `Read` of the reader returns. -/
  | readReturns (cmd : Nat) (stream : Stream) (chunk : List Char) (eof : Bool)
  /-- The reader handles what `Read` returned (lines 298 to 305, 316 to 324). -/
  | handle (cmd : Nat) (stream : Stream)
  /-- The call `cmd.Wait()` returns, with the text of an error or without. -/
  | waitReturns (cmd : Nat) (err : Option (List Char))
  /-- The standard output reader writes the prompt. -/
  | writePrompt (cmd : Nat)
  deriving DecidableEq, Repr

/-- The place reader `stream` of session `cmd` has reached. -/
def Sessions.readerAt (s : Sessions) (cmd : Nat) (stream : Stream) : Option ReaderAt :=
  (s.readers.find? (fun r => r.1 = cmd ∧ r.2.1 = stream)).map (fun r => r.2.2)

/-- Moves reader `stream` of session `cmd` to `place`. -/
def Sessions.moveReader (s : Sessions) (cmd : Nat) (stream : Stream) (place : ReaderAt) :
    Sessions :=
  { s with readers := s.readers.map (fun r =>
      if r.1 = cmd ∧ r.2.1 = stream then (cmd, stream, place) else r) }

/-- The method `termWrite` called by reader `stream` of session `cmd`. -/
def Sessions.termWrite (s : Sessions) (cmd : Nat) (stream : Stream) (text : List Char) :
    Sessions :=
  { s with log := s.log ++ [.wrote cmd stream text] }

/-- The step function: `none` when the action is not enabled in the state. -/
def Sessions.step (s : Sessions) : Action → Option Sessions
  | .termRun cmd =>
    if s.readers.any (fun r => r.1 = cmd) then none
    else some { termCmd := some cmd,
                readers := s.readers ++ [(cmd, .stderr, .check), (cmd, .stdout, .check)],
                log := s.log ++ [.started cmd] }
  | .test cmd stream =>
    match s.readerAt cmd stream with
    | some .check =>
      if s.termCmd ≠ some cmd then some (s.moveReader cmd stream .done)
      else some (s.moveReader cmd stream .reading)
    | _ => none
  | .readReturns cmd stream chunk eof =>
    match s.readerAt cmd stream with
    | some .reading => some (s.moveReader cmd stream (.got chunk eof))
    | _ => none
  | .handle cmd stream =>
    match s.readerAt cmd stream with
    | some (.got chunk eof) =>
      let s1 := if chunk.length > 0 then s.termWrite cmd stream (filterChunk chunk) else s
      match stream, eof with
      | .stdout, true => some ({ s1 with termCmd := none }.moveReader cmd stream .waiting)
      | .stderr, true => some (s1.moveReader cmd stream .done)
      | _, false => some (s1.moveReader cmd stream .check)
    | _ => none
  | .waitReturns cmd err =>
    match s.readerAt cmd .stdout with
    | some .waiting =>
      let s1 := match err with
        | some msg => s.termWrite cmd .stdout (msg ++ "\n".data)
        | none => s
      some (s1.moveReader cmd .stdout .prompt)
    | _ => none
  | .writePrompt cmd =>
    match s.readerAt cmd .stdout with
    | some .prompt => some ((s.termWrite cmd .stdout "$ ".data).moveReader cmd .stdout .done)
    | _ => none

/-- Runs a schedule from a state. -/
def Sessions.steps (s : Sessions) : List Action → Option Sessions
  | [] => some s
  | act :: rest =>
    match s.step act with
    | some s1 => s1.steps rest
    | none => none

/-- The state before the first command: no session, nothing written. -/
def Sessions.init : Sessions := { termCmd := none, readers := [], log := [] }

/-- The writes that a reader of a session made after `termRun` had started a later
session: for each start in the record, the writes that follow it and are of
another session. -/
def lateWrites : List Event → List Event
  | [] => []
  | .started cmd :: rest =>
    rest.filter (fun e => match e with
      | .wrote c _ _ => c ≠ cmd ∧ (rest.all (fun e1 => e1 ≠ .started c))
      | .started _ => false) ++ lateWrites rest
  | .wrote _ _ _ :: rest => lateWrites rest

/-! ## Contracts and example inputs -/

/-- The contract of `sort.Slice`: the result is a rearrangement of the input in
which no element is less than one before it. -/
def SortedBy {α : Type} (less : α → α → Bool) (input output : List α) : Prop :=
  output.Perm input ∧ output.Pairwise (fun x y => less y x = false)

/-- The state used in the examples: the file `f` is open, the buffer holds `ab`
and the last known fingerprint is that of `a`. -/
def exampleApp : App :=
  { files := [], filePath := "f".data, fileChecksum := fingerprint [0x61], termLast := 0,
    textEditor := [0x61, 0x62] }

/-- The entries of the example of the specification (the files `b.txt` and
`a.txt`, the directories `a` and `c`) in the order `os.ReadDir` returns them,
sorted by file name: `a`, `a.txt`, `b.txt`, `c`. -/
def exampleEntries : List DirEntry :=
  [⟨"a".data, true⟩, ⟨"a.txt".data, false⟩, ⟨"b.txt".data, false⟩, ⟨"c".data, true⟩]

/-! ## The fingerprint is injective -/

theorem hexDigit_injOn : ∀ m n : Fin 16, hexDigit m = hexDigit n → m = n := by decide

theorem hexDigit_inj {m n : Nat} (hm : m < 16) (hn : n < 16) (h : hexDigit m = hexDigit n) :
    m = n := by
  have := hexDigit_injOn ⟨m, hm⟩ ⟨n, hn⟩ h
  exact congrArg Fin.val this

theorem hexEncode_injective : ∀ xs ys : Bytes, hexEncode xs = hexEncode ys → xs = ys
  | [], [], _ => rfl
  | [], _ :: _, h => by simp [hexEncode] at h
  | _ :: _, [], h => by simp [hexEncode] at h
  | x :: xs, y :: ys, h => by
    simp only [hexEncode, List.cons.injEq] at h
    obtain ⟨h1, h2, h3⟩ := h
    have hx : x.toNat < 256 := x.toNat_lt
    have hy : y.toNat < 256 := y.toNat_lt
    have e1 := hexDigit_inj (by omega) (by omega) h1
    have e2 := hexDigit_inj (Nat.mod_lt _ (by decide)) (Nat.mod_lt _ (by decide)) h2
    have : x = y := UInt8.ext (by omega)
    rw [this, hexEncode_injective xs ys h3]

theorem fingerprint_injective (xs ys : Bytes) (h : fingerprint xs = fingerprint ys) : xs = ys := by
  have := hexEncode_injective _ _ h
  exact List.append_cancel_right this

/-! ## File synchronisation: one pass of the sync loop -/

/-- C1. Local-write precedence: with a file open and a buffer whose fingerprint
differs from the last known one, a pass whose disk write succeeds leaves the
buffer content on disk, whatever the disk held; the buffer is as it was, the
last known fingerprint is that of the buffer, and the only call made is the
write: the disk is not read and the buffer is not replaced. -/
theorem local_write_precedence (a : App) (disk : Bytes) (readOk : Bool)
    (hopen : a.filePath ≠ [])
    (hchanged : fingerprint a.textEditor ≠ a.fileChecksum) :
    (a.runPass disk none readOk).disk = a.textEditor ∧
    (a.runPass disk none readOk).app.textEditor = a.textEditor ∧
    (a.runPass disk none readOk).app.fileChecksum = fingerprint a.textEditor ∧
    (a.runPass disk none readOk).effects = [.writeFile a.filePath a.textEditor] ∧
    (∀ e ∈ (a.runPass disk none readOk).effects, e.isRead = false ∧ e.isSetText = false) := by
  simp [App.runPass, hopen, hchanged, Effect.isRead, Effect.isSetText]

theorem local_write_precedence_witness :
    exampleApp.filePath ≠ [] ∧ fingerprint exampleApp.textEditor ≠ exampleApp.fileChecksum ∧
    (exampleApp.runPass [0x7a] none true).disk = [0x61, 0x62] :=
  ⟨by decide, by decide,
   (local_write_precedence exampleApp [0x7a] true (by decide) (by decide)).1⟩

/-- C2. The fingerprint binding invariant (the last known fingerprint is that of
the bytes on disk or that of the buffer) holds after `loadFile` has read the
file, and a pass of the sync loop keeps it, whatever the outcome of the disk
write and of the disk read. -/
theorem fingerprint_binding_invariant (a : App) (path : List Char) (bs disk : Bytes)
    (writeErr : Option (List Char)) (readOk : Bool) :
    (∃ b, a.loadFile path (.ok bs) = .ok b ∧ FingerprintBound b bs) ∧
    (FingerprintBound a disk →
      FingerprintBound (a.runPass disk writeErr readOk).app
        (a.runPass disk writeErr readOk).disk) := by
  refine ⟨⟨_, rfl, Or.inr rfl⟩, ?_⟩
  intro h
  unfold App.runPass
  by_cases hopen : a.filePath = []
  · simpa [hopen] using h
  · by_cases hsum : fingerprint a.textEditor = a.fileChecksum
    · cases readOk
      · simpa [hopen, hsum] using h
      · by_cases hdisk : fingerprint disk = a.fileChecksum
        · simpa [hopen, hsum, hdisk] using h
        · simp [hopen, hsum, hdisk, FingerprintBound]
    · cases writeErr with
      | none => simp [hopen, hsum, FingerprintBound]
      | some msg => simpa [hopen, hsum] using h

theorem fingerprint_binding_invariant_witness :
    FingerprintBound exampleApp [0x61] ∧
    FingerprintBound (exampleApp.runPass [0x61] (some "denied".data) true).app
      (exampleApp.runPass [0x61] (some "denied".data) true).disk :=
  ⟨by decide,
   (fingerprint_binding_invariant exampleApp [] [] [0x61] (some "denied".data) true).2
     (by decide)⟩

/-- C3 as stated fails: the buffer and the disk both hold `ab`, so their
fingerprints are equal, the last known fingerprint is that of `a`, and the pass
writes the file. -/
theorem reconcile_idempotence_counterexample :
    fingerprint exampleApp.textEditor = fingerprint [0x61, 0x62] ∧
    (exampleApp.runPass [0x61, 0x62] none true).effects
      = [.writeFile "f".data [0x61, 0x62]] := by
  decide

/-- C3, amended. When the buffer and the disk have the same fingerprint, a pass
leaves the buffer content and the content on disk as they were (a failed disk
write being taken to leave the file as it was); it makes no disk write when the
last known fingerprint is that of the buffer, and none when no file is open;
with a file open and a last known fingerprint that is not that of the buffer
it makes exactly one disk write, of the buffer content, which is the content
the disk holds. -/
theorem reconcile_idempotence (a : App) (disk : Bytes) (writeErr : Option (List Char))
    (readOk : Bool) (heq : fingerprint a.textEditor = fingerprint disk) :
    (a.runPass disk writeErr readOk).app.textEditor = a.textEditor ∧
    (a.runPass disk writeErr readOk).disk = disk ∧
    (a.fileChecksum = fingerprint a.textEditor →
      ∀ e ∈ (a.runPass disk writeErr readOk).effects, e.isWrite = false) ∧
    (a.filePath = [] → (a.runPass disk writeErr readOk).effects = []) ∧
    (a.filePath ≠ [] → a.fileChecksum ≠ fingerprint a.textEditor →
      (a.runPass disk writeErr readOk).effects.filter Effect.isWrite
        = [.writeFile a.filePath disk]) := by
  have hbd : a.textEditor = disk := fingerprint_injective _ _ heq
  subst hbd
  unfold App.runPass
  by_cases hopen : a.filePath = []
  · simp [hopen]
  · by_cases hsum : fingerprint a.textEditor = a.fileChecksum
    · cases readOk <;> simp [hopen, hsum, Effect.isWrite]
    · have hne : ¬ a.fileChecksum = fingerprint a.textEditor := fun h => hsum h.symm
      cases writeErr <;> simp [hopen, hsum, hne, Effect.isWrite]

theorem reconcile_idempotence_witness :
    fingerprint exampleApp.textEditor = fingerprint [0x61, 0x62] ∧
    (exampleApp.runPass [0x61, 0x62] none true).app.textEditor = [0x61, 0x62] ∧
    (exampleApp.runPass [0x61, 0x62] none true).disk = [0x61, 0x62] ∧
    (exampleApp.runPass [0x61, 0x62] none true).effects.filter Effect.isWrite
      = [.writeFile "f".data [0x61, 0x62]] :=
  ⟨by decide,
   (reconcile_idempotence exampleApp [0x61, 0x62] none true (by decide)).1,
   (reconcile_idempotence exampleApp [0x61, 0x62] none true (by decide)).2.1,
   (reconcile_idempotence exampleApp [0x61, 0x62] none true (by decide)).2.2.2.2
     (by decide) (by decide)⟩

/-! ## Terminal dispatch: `Update` -/

theorem lastIndexByte_ge (l : List Char) (c : Char) : -1 ≤ lastIndexByte l c := by
  induction l with
  | nil => simp [lastIndexByte]
  | cons x xs ih =>
    simp only [lastIndexByte]
    split_ifs <;> omega

theorem lastIndexByte_absent (l : List Char) (c : Char) (h : c ∉ l) : lastIndexByte l c = -1 := by
  induction l with
  | nil => rfl
  | cons x xs ih =>
    have hx : ¬ x = c := fun e => h (by simp [e])
    have hxs : c ∉ xs := fun e => h (by simp [e])
    simp [lastIndexByte, ih hxs, hx]

theorem lastIndexByte_cons (x : Char) (xs : List Char) (c : Char) :
    lastIndexByte (x :: xs) c =
      if 0 ≤ lastIndexByte xs c then lastIndexByte xs c + 1 else if x = c then 0 else -1 := rfl

theorem lastIndexByte_append (p l : List Char) (c : Char) :
    lastIndexByte (p ++ l) c =
      if 0 ≤ lastIndexByte l c then (p.length : Int) + lastIndexByte l c
      else lastIndexByte p c := by
  induction p with
  | nil =>
    have := lastIndexByte_ge l c
    have e : lastIndexByte [] c = -1 := rfl
    rw [List.nil_append, e]
    split_ifs with h
    · simp
    · omega
  | cons x xs ih =>
    rw [List.cons_append, lastIndexByte_cons, lastIndexByte_cons, ih]
    by_cases h : 0 ≤ lastIndexByte l c
    · have h2 : (0 : Int) ≤ (xs.length : Int) + lastIndexByte l c := by omega
      rw [if_pos h, if_pos h, if_pos h2, List.length_cons]
      push_cast
      omega
    · rw [if_neg h, if_neg h]

/-- The line before the caret: after a transcript `p` that is empty or ends with a
newline, and before a text `l` without newline, the last newline of `p ++ l` is
the last character of `p`. -/
theorem lastIndexByte_line (p l : List Char) (hl : '\n' ∉ l)
    (hp : p = [] ∨ p.getLast? = some '\n') :
    lastIndexByte (p ++ l) '\n' + 1 = p.length := by
  rw [lastIndexByte_append, lastIndexByte_absent l _ hl]
  simp only [show ¬ ((0 : Int) ≤ -1) by decide, if_false]
  rcases hp with rfl | hp
  · rfl
  · obtain ⟨q, rfl⟩ := List.getLast?_eq_some_iff.mp hp
    rw [lastIndexByte_append]
    simp [lastIndexByte]

/-- C10. The dispatch check of `Update` is not total: with the transcript `"$ "`,
the caret collapsed at offset 0 and an editor event pending, the condition reads
`t[selS-1]` at index `-1` and the program panics. -/
theorem update_panics_at_caret_zero :
    App.zero.Update 1 "$ ".data 0 0 = .error (.indexOutOfRange (-1) 2) := by
  rfl

theorem lastIndexByte_lt (l : List Char) (c : Char) : lastIndexByte l c < l.length := by
  induction l with
  | nil => simp [lastIndexByte]
  | cons x xs ih =>
    rw [lastIndexByte_cons, List.length_cons]
    push_cast
    split_ifs <;> omega

theorem hasPrefix_dollar_length (line : List Char) (h : hasPrefix line "$".data = true) :
    1 ≤ line.length := by
  cases line with
  | nil => simp [hasPrefix] at h
  | cons x xs => simp

/-- The only caret at which the dispatch check of `Update` indexes outside the
transcript is offset 0: for a caret from 1 to the length of the transcript the
index and the slices are in range and `Update` returns. -/
theorem update_ok_of_caret_pos (a : App) (events : Nat) (t : List Char) (selS selE : Int)
    (h1 : 1 ≤ selS) (h2 : selS ≤ t.length) :
    ∃ r, a.Update events t selS selE = .ok r := by
  unfold App.Update
  by_cases hev : events > 0
  swap
  · exact ⟨_, by rw [if_neg hev]; rfl⟩
  rw [if_pos hev]
  by_cases hsel : selS = selE ∧ t.length > 0
  swap
  · exact ⟨_, by rw [if_neg hsel]; rfl⟩
  rw [if_pos hsel]
  have hidx : goIndex t (selS - 1) = .ok (t.getD (selS - 1).toNat ' ') := by
    unfold goIndex
    rw [if_pos ⟨by omega, by omega⟩]
  rw [hidx]
  simp only [bind, Except.bind]
  by_cases hnl : t.getD (selS - 1).toNat ' ' = '\n' ∧ selS ≠ a.termLast
  swap
  · exact ⟨_, by rw [if_neg hnl]; rfl⟩
  rw [if_pos hnl]
  have hbefore : goSlice t 0 (selS - 1) = .ok ((t.take (selS - 1).toNat).drop 0) := by
    unfold goSlice
    rw [if_pos ⟨le_refl _, by omega, by omega⟩]
    rfl
  rw [hbefore]
  simp only [List.drop_zero]
  have hlen : ((t.take (selS - 1).toNat).length : Int) = selS - 1 := by
    rw [List.length_take]
    omega
  have hlo := lastIndexByte_ge (t.take (selS - 1).toNat) '\n'
  have hhi := lastIndexByte_lt (t.take (selS - 1).toNat) '\n'
  have hline : ∃ line, goSlice t (max 0 (lastIndexByte (t.take (selS - 1).toNat) '\n' + 1))
      (selS - 1) = .ok line := by
    unfold goSlice
    refine ⟨_, if_pos ⟨le_max_left _ _, ?_, by omega⟩⟩
    exact max_le (by omega) (by omega)
  obtain ⟨line, hline⟩ := hline
  rw [hline]
  simp only
  by_cases hpre : hasPrefix line "$".data = true
  · rw [if_pos hpre]
    have hcmd : goSlice line 1 line.length = .ok ((line.take ((line.length : Int)).toNat).drop 1) := by
      unfold goSlice
      have := hasPrefix_dollar_length line hpre
      rw [if_pos ⟨by omega, by omega, le_refl _⟩]
      rfl
    rw [hcmd]
    exact ⟨_, rfl⟩
  · rw [if_neg hpre]
    exact ⟨_, rfl⟩

/-- C5. No re-dispatch: when a pass of `Update` dispatches a command, a second
pass over the same transcript and the same caret dispatches nothing and leaves
`termLast` (and the rest of the state) as it is, with or without editor events
pending. -/
theorem no_redispatch (a b : App) (events : Nat) (t : List Char) (selS selE : Int)
    (cmd : List Char) (h : a.Update events t selS selE = .ok (b, some cmd)) (events2 : Nat) :
    b.Update events2 t selS selE = .ok (b, none) := by
  unfold App.Update at h ⊢
  by_cases hev : events > 0
  · rw [if_pos hev] at h
    by_cases hsel : selS = selE ∧ t.length > 0
    · rw [if_pos hsel] at h
      cases hidx : goIndex t (selS - 1) with
      | error e => rw [hidx] at h; cases h
      | ok ch =>
        rw [hidx] at h
        by_cases hnl : ch = '\n' ∧ selS ≠ a.termLast
        · have hb : b.termLast = selS := by
            simp only [bind, Except.bind, if_pos hnl] at h
            cases hs1 : goSlice t 0 (selS - 1) with
            | error e => rw [hs1] at h; cases h
            | ok before =>
              rw [hs1] at h
              simp only at h
              cases hs2 : goSlice t (max 0 (lastIndexByte before '\n' + 1)) (selS - 1) with
              | error e => rw [hs2] at h; cases h
              | ok line =>
                rw [hs2] at h
                simp only at h
                split_ifs at h
                · cases hs3 : goSlice line 1 line.length with
                  | error e => rw [hs3] at h; cases h
                  | ok c =>
                    rw [hs3] at h
                    simp only [pure, Except.pure, Except.ok.injEq, Prod.mk.injEq] at h
                    rw [← h.1]
                · simp [pure, Except.pure] at h
          have hno : ¬ (ch = '\n' ∧ selS ≠ b.termLast) := fun hc => hc.2 hb.symm
          by_cases hev2 : events2 > 0
          · rw [if_pos hev2, if_pos hsel]
            simp only [bind, Except.bind, if_neg hno]
            rfl
          · rw [if_neg hev2]; rfl
        · simp [bind, Except.bind, if_neg hnl, pure, Except.pure] at h
    · rw [if_neg hsel] at h
      simp [pure, Except.pure] at h
  · rw [if_neg hev] at h
    simp [pure, Except.pure] at h

theorem no_redispatch_witness :
    App.zero.Update 1 "$ echo hi\n".data 10 10
      = .ok ({ App.zero with termLast := 10 }, some " echo hi".data) ∧
    ({ App.zero with termLast := 10 } : App).Update 1 "$ echo hi\n".data 10 10
      = .ok ({ App.zero with termLast := 10 }, none) :=
  ⟨rfl, no_redispatch App.zero _ 1 "$ echo hi\n".data 10 10 " echo hi".data rfl 1⟩

theorem goIndex_last (body : List Char) (x : Char) :
    goIndex (body ++ [x]) (((body ++ [x]).length : Int) - 1) = .ok x := by
  have e : (((body ++ [x]).length : Int) - 1) = (body.length : Int) := by
    simp
  rw [e]
  unfold goIndex
  have hcond : (0 : Int) ≤ (body.length : Int) ∧ (body.length : Int) < ((body ++ [x]).length : Nat) := by
    constructor
    · omega
    · simp
  rw [if_pos hcond]
  simp [List.getD_eq_getElem?_getD]

theorem goSlice_init (body : List Char) (x : Char) (lo : Nat) (hlo : lo ≤ body.length) :
    goSlice (body ++ [x]) lo (((body ++ [x]).length : Int) - 1) = .ok (body.drop lo) := by
  have e : (((body ++ [x]).length : Int) - 1) = (body.length : Int) := by
    simp
  rw [e]
  unfold goSlice
  have hcond : (0 : Int) ≤ (lo : Int) ∧ (lo : Int) ≤ (body.length : Int) ∧
      (body.length : Int) ≤ ((body ++ [x]).length : Nat) := by
    refine ⟨by omega, by omega, ?_⟩
    simp
  rw [if_pos hcond]
  simp

theorem goSlice_tail (y : Char) (l : List Char) :
    goSlice (y :: l) 1 ((y :: l).length : Nat) = .ok l := by
  unfold goSlice
  have hcond : (0 : Int) ≤ 1 ∧ (1 : Int) ≤ ((y :: l).length : Nat) ∧
      (((y :: l).length : Nat) : Int) ≤ ((y :: l).length : Nat) := by
    refine ⟨by omega, ?_, le_refl _⟩
    simp
  rw [if_pos hcond]
  simp

/-- C4 as stated fails: for the transcript `"$ echo hi\n"` the command given to
`termRun` is `" echo hi"`, the line without its first character `$`, and not
`"echo hi"`. -/
theorem command_extraction_counterexample :
    App.zero.Update 1 "$ echo hi\n".data 10 10
      = .ok ({ App.zero with termLast := 10 }, some " echo hi".data) ∧
    App.zero.Update 1 "$ echo hi\n".data 10 10
      ≠ .ok ({ App.zero with termLast := 10 }, some "echo hi".data) := by
  refine ⟨rfl, ?_⟩
  rw [show App.zero.Update 1 "$ echo hi\n".data 10 10
      = .ok ({ App.zero with termLast := 10 }, some " echo hi".data) from rfl]
  intro h
  simp only [Except.ok.injEq, Prod.mk.injEq, Option.some.injEq, true_and] at h
  exact absurd h (by decide)

/-- C4, amended. For a command text `c` without newline and a transcript prefix
`p` that is empty or ends with a newline, when the transcript is
`p ++ "$ " ++ c ++ "\n"`, the caret is collapsed right after the final newline,
differs from the last dispatched position and an editor event is pending,
`Update` gives `termRun` the line without its first character `$`, that is
`" " ++ c` (the space of the prompt is kept), and records the caret as the last
dispatched position. -/
theorem command_extraction (a : App) (events : Nat) (p c : List Char)
    (hc : '\n' ∉ c) (hp : p = [] ∨ p.getLast? = some '\n') (hev : events > 0)
    (hlast : ((p ++ "$ ".data ++ c ++ "\n".data).length : Int) ≠ a.termLast) :
    a.Update events (p ++ "$ ".data ++ c ++ "\n".data)
        ((p ++ "$ ".data ++ c ++ "\n".data).length : Int)
        ((p ++ "$ ".data ++ c ++ "\n".data).length : Int)
      = .ok ({ a with termLast := ((p ++ "$ ".data ++ c ++ "\n".data).length : Int) },
             some (" ".data ++ c)) := by
  have ht : p ++ "$ ".data ++ c ++ "\n".data = (p ++ '$' :: ' ' :: c) ++ ['\n'] := by simp
  rw [ht] at hlast ⊢
  generalize hbody : p ++ '$' :: ' ' :: c = body at hlast ⊢
  have hline : '\n' ∉ '$' :: ' ' :: c := by
    simp only [List.mem_cons, not_or]
    exact ⟨by decide, by decide, hc⟩
  have hidx := lastIndexByte_line p ('$' :: ' ' :: c) hline hp
  rw [hbody] at hidx
  have hple : p.length ≤ body.length := by rw [← hbody]; simp
  have hdrop : body.drop p.length = '$' :: ' ' :: c := by rw [← hbody]; simp
  have hpos : (body ++ ['\n']).length > 0 := by simp
  unfold App.Update
  have hcond : ((body ++ ['\n']).length : Int) = ((body ++ ['\n']).length : Int) ∧
      (body ++ ['\n']).length > 0 := ⟨rfl, hpos⟩
  rw [if_pos hev, if_pos hcond, goIndex_last]
  simp only [bind, Except.bind]
  rw [if_pos ⟨trivial, hlast⟩]
  have h0 := goSlice_init body '\n' 0 (Nat.zero_le _)
  simp only [Nat.cast_zero, List.drop_zero] at h0
  rw [h0]
  simp only
  rw [hidx, max_eq_right (by omega : (0 : Int) ≤ (p.length : Int)),
    goSlice_init body '\n' p.length hple, hdrop]
  simp only
  have hpre : hasPrefix ('$' :: ' ' :: c) "$".data = true := by simp [hasPrefix]
  rw [if_pos hpre, goSlice_tail]
  rfl

theorem command_extraction_witness :
    App.zero.Update 1 ("ok\n".data ++ "$ ".data ++ "ls -l".data ++ "\n".data) 11 11
      = .ok ({ App.zero with termLast := 11 }, some " ls -l".data) :=
  command_extraction App.zero 1 "ok\n".data "ls -l".data (by decide) (by decide) (by decide)
    (by decide)

/-! ## Stream filter -/

/-- A match cannot succeed when what remains to be matched fails on every suffix
of the input. -/
theorem starLoop_none (body : List Char → (List Char → Option (List Char)) → Option (List Char))
    (hbody : ∀ s k, (∀ s1, s1 <:+ s → k s1 = none) → body s k = none) :
    ∀ (fuel : Nat) (s : List Char) (k : List Char → Option (List Char)),
      (∀ s1, s1 <:+ s → k s1 = none) → starLoop body fuel s k = none
  | 0, s, k, hk => hk s (List.suffix_refl s)
  | fuel + 1, s, k, hk => by
    have hinner : body s (fun s1 =>
        if s1.length < s.length then starLoop body fuel s1 k else none) = none := by
      apply hbody
      intro s1 hs1
      by_cases hlen : s1.length < s.length
      · rw [if_pos hlen]
        exact starLoop_none body hbody fuel s1 k (fun s2 hs2 => hk s2 (hs2.trans hs1))
      · rw [if_neg hlen]
    simp only [starLoop, hinner]
    exact hk s (List.suffix_refl s)

theorem run_none : ∀ (r : Regex) (s : List Char) (k : List Char → Option (List Char)),
    (∀ s1, s1 <:+ s → k s1 = none) → r.run s k = none
  | .eps, s, k, hk => hk s (List.suffix_refl s)
  | .cls ranges, [], k, _ => rfl
  | .cls ranges, c :: cs, k, hk => by
    simp only [Regex.run]
    split_ifs
    · exact hk cs (List.suffix_cons c cs)
    · rfl
  | .dot, [], k, _ => rfl
  | .dot, c :: cs, k, hk => by
    simp only [Regex.run]
    split_ifs
    · exact hk cs (List.suffix_cons c cs)
    · rfl
  | .cat r1 r2, s, k, hk => by
    simp only [Regex.run]
    exact run_none r1 s _ (fun s1 hs1 =>
      run_none r2 s1 k (fun s2 hs2 => hk s2 (hs2.trans hs1)))
  | .alt r1 r2, s, k, hk => by
    simp only [Regex.run, run_none r1 s k hk, run_none r2 s k hk]
  | .star r, s, k, hk => by
    simp only [Regex.run]
    exact starLoop_none r.run (fun s1 k1 h1 => run_none r s1 k1 h1) s.length s k hk
  | .opt r, s, k, hk => by
    simp only [Regex.run, run_none r s k hk]
    exact hk s (List.suffix_refl s)

theorem char_eq_of_toNat {c d : Char} (h : c.toNat = d.toNat) : c = d := by
  rw [← Char.ofNat_toNat c, ← Char.ofNat_toNat d, h]

theorem run_cat (r1 r2 : Regex) (s : List Char) (k : List Char → Option (List Char)) :
    (Regex.cat r1 r2).run s k = r1.run s (fun s1 => r2.run s1 k) := rfl

/-- The branch of `ansi` that ends with the bell character does not match a text
without that character. -/
theorem ansiBel_none (s : List Char) (h : '\x07' ∉ s) : ansiBel.run s some = none := by
  unfold ansiBel
  rw [run_cat]
  apply run_none
  intro s1 hs1
  cases s1 with
  | nil => rfl
  | cons c cs =>
    have hc : c ∈ s := hs1.subset (by simp)
    have hne : c ≠ '\x07' := fun e => h (e ▸ hc)
    have : ¬ c.toNat = 7 := fun e => hne (char_eq_of_toNat (by simpa using e))
    simp [Regex.run, inClass]
    omega

theorem run_alt (r1 r2 : Regex) (s : List Char) (k : List Char → Option (List Char)) :
    (Regex.alt r1 r2).run s k =
      match r1.run s k with
      | some rest => some rest
      | none => r2.run s k := rfl

/-- The colour sequence `ESC [ 3 1 m` is matched whole, whatever follows it, as
long as no bell character follows. -/
theorem ansiRe_match_colour (rest : List Char) (h : '\x07' ∉ rest) :
    ansiRe.matchAt ('\x1b' :: '[' :: '3' :: '1' :: 'm' :: rest) = some rest := by
  have hbel : ansiBel.run ('3' :: '1' :: 'm' :: rest) some = none := by
    apply ansiBel_none
    simp only [List.mem_cons, not_or]
    exact ⟨by decide, by decide, by decide, h⟩
  have hfin : ansiFinal.run ('3' :: '1' :: 'm' :: rest) some = some rest := by
    simp +decide [ansiFinal, Regex.run, starLoop, inClass, digit, semi, Regex.upTo]
  have hesc : ∀ k, (Regex.cls [('\x1b', '\x1b'), ('\u009b', '\u009b')]).run
      ('\x1b' :: '[' :: '3' :: '1' :: 'm' :: rest) k = k ('[' :: '3' :: '1' :: 'm' :: rest) := by
    intro k
    simp +decide [Regex.run, inClass]
  have hbrk : ∀ k : List Char → Option (List Char), k ('3' :: '1' :: 'm' :: rest) = some rest →
      (Regex.star (.cls [('[', '['), (']', ']'), ('(', '('), (')', ')'), ('#', '#'), (';', ';'),
        ('?', '?')])).run ('[' :: '3' :: '1' :: 'm' :: rest) k = some rest := by
    intro k hk
    simp +decide [Regex.run, starLoop, inClass, hk]
  unfold Regex.matchAt ansiRe
  rw [run_cat, hesc, run_cat]
  apply hbrk
  rw [run_alt, hbel, hfin]

theorem removeAll_skip (re : Regex) : ∀ (n : Nat) (pre rest : List Char), pre.length = n →
    re.removeAll n (pre ++ rest) = re.removeAll 0 rest
  | 0, pre, rest, h => by
    have : pre = [] := List.length_eq_zero.mp h
    rw [this, List.nil_append]
  | n + 1, [], rest, h => by simp at h
  | n + 1, c :: pre, rest, h => by
    rw [List.cons_append]
    have hn : pre.length = n := by simpa using h
    cases hr : pre ++ rest with
    | nil =>
      have hp : pre = [] := (List.append_eq_nil.mp hr).1
      have hre : rest = [] := (List.append_eq_nil.mp hr).2
      subst hp; subst hre
      simp at hn
      subst hn
      rfl
    | cons d ds =>
      rw [← hr]
      show re.removeAll n (pre ++ rest) = _
      exact removeAll_skip re n pre rest hn

/-- A match at the start of the text that leaves `rest` and is not empty removes
what precedes `rest`. -/
theorem removeAll_match (re : Regex) (c : Char) (pre rest : List Char)
    (h : re.matchAt (c :: pre ++ rest) = some rest) :
    re.removeAll 0 (c :: pre ++ rest) = re.removeAll 0 rest := by
  rw [List.cons_append, Regex.removeAll]
  rw [List.cons_append] at h
  rw [h]
  have hn : (c :: (pre ++ rest)).length - rest.length = pre.length + 1 := by
    simp only [List.length_cons, List.length_append]
    omega
  simp only [hn, Nat.add_one_ne_zero, if_false, Nat.add_sub_cancel]
  exact removeAll_skip re pre.length pre rest rfl

/-- No match starts at a character that stays: the character is copied. -/
theorem removeAll_nomatch (re : Regex) (c : Char) (cs : List Char)
    (h : re.matchAt (c :: cs) = none) :
    re.removeAll 0 (c :: cs) = c :: re.removeAll 0 cs := by
  rw [Regex.removeAll, h]

theorem ansiRe_nomatch_printable (c : Char) (cs : List Char) (hc : Printable c) :
    ansiRe.matchAt (c :: cs) = none := by
  unfold Regex.matchAt ansiRe
  rw [run_cat]
  unfold Printable at hc
  have : inClass [('\x1b', '\x1b'), ('\u009b', '\u009b')] c = false := by
    simp [inClass]
    omega
  simp [Regex.run, this]

theorem ansiRe_removeAll_printable (s tail : List Char) (hs : ∀ c ∈ s, Printable c) :
    ansiRe.removeAll 0 (s ++ tail) = s ++ ansiRe.removeAll 0 tail := by
  induction s with
  | nil => rfl
  | cons c cs ih =>
    rw [List.cons_append, removeAll_nomatch _ _ _
      (ansiRe_nomatch_printable c (cs ++ tail) (hs c (by simp))),
      ih (fun d hd => hs d (by simp [hd])), List.cons_append]

theorem backspaceRe_removeAll_printable : ∀ s : List Char, (∀ c ∈ s, Printable c) →
    backspaceRe.removeAll 0 s = s
  | [], _ => rfl
  | c :: cs, hs => by
    have hno : backspaceRe.matchAt (c :: cs) = none := by
      unfold Regex.matchAt backspaceRe
      cases cs with
      | nil => simp [Regex.run]
      | cons d ds =>
        have hd : Printable d := hs d (by simp)
        unfold Printable at hd
        have : inClass [('\x08', '\x08')] d = false := by
          simp [inClass]
          omega
        simp [Regex.run, this]
    rw [removeAll_nomatch _ _ _ hno,
      backspaceRe_removeAll_printable cs (fun d hd => hs d (by simp [hd]))]

theorem printable_ne_bel (s : List Char) (hs : ∀ c ∈ s, Printable c) : '\x07' ∉ s := by
  intro h
  have := hs _ h
  revert this
  decide

/-- C7. The stream filter removes the colour escape sequences and keeps the text
between them: for a text `s` of printable ASCII characters, the filter applied
to `"\x1b[31m" ++ s ++ "\x1b[0m"` gives `s`; for `s = "Hello"` it gives
`"Hello"`. -/
theorem filter_colour_sequences (s : List Char) (hs : ∀ c ∈ s, Printable c) :
    filterChunk ("\x1b[31m".data ++ s ++ "\x1b[0m".data) = s ∧
    filterChunk "\x1b[31mHello\x1b[0m".data = "Hello".data := by
  refine ⟨?_, by decide⟩
  have hbel : '\x07' ∉ s ++ "\x1b[0m".data := by
    intro h
    rcases List.mem_append.mp h with h | h
    · exact printable_ne_bel s hs h
    · revert h; decide
  have hfirst := removeAll_match ansiRe '\x1b' ['[', '3', '1', 'm'] (s ++ "\x1b[0m".data)
    (ansiRe_match_colour _ hbel)
  have hshape : "\x1b[31m".data ++ s ++ "\x1b[0m".data
      = '\x1b' :: ['[', '3', '1', 'm'] ++ (s ++ "\x1b[0m".data) := by simp
  have hlast : ansiRe.removeAll 0 "\x1b[0m".data = [] := by decide
  unfold filterChunk Regex.ReplaceAllString
  rw [hshape, hfirst, ansiRe_removeAll_printable s _ hs, hlast, List.append_nil,
    backspaceRe_removeAll_printable s hs]

theorem filter_colour_sequences_witness :
    filterChunk ("\x1b[31m".data ++ "ls -l | wc".data ++ "\x1b[0m".data) = "ls -l | wc".data :=
  (filter_colour_sequences "ls -l | wc".data (by decide)).1

/-- C8 as stated fails: the filter applied to `"Hex\bllo"` does not give `"Hlo"`. -/
theorem filter_backspace_counterexample :
    filterChunk ['H', 'e', 'x', '\x08', 'l', 'l', 'o'] ≠ "Hlo".data := by
  decide

/-- C8, amended. The filter applied to the 7-character chunk `"Hex\bllo"` removes
the pair made of `x` and the backspace that follows it, and gives `"Hello"`. -/
theorem filter_backspace :
    filterChunk ['H', 'e', 'x', '\x08', 'l', 'l', 'o'] = "Hello".data := by
  decide


/-! ## Directory listing -/

theorem strLess_asymm : ∀ x y : List Char, strLess x y = true → strLess y x = false
  | [], [], _ => rfl
  | [], _ :: _, _ => rfl
  | _ :: _, [], h => by simp [strLess] at h
  | x :: xs, y :: ys, h => by
    simp only [strLess] at h ⊢
    by_cases h1 : x.toNat < y.toNat
    · have h2 : ¬ y.toNat < x.toNat := by omega
      simp [h1, h2]
    · by_cases h2 : y.toNat < x.toNat
      · simp [h1, h2] at h
      · simp only [h1, h2, if_false] at h ⊢
        exact strLess_asymm xs ys h

theorem strLess_negtrans : ∀ x y z : List Char,
    strLess x y = false → strLess y z = false → strLess x z = false
  | [], [], _, _, h2 => h2
  | [], _ :: _, _, h1, _ => by simp [strLess] at h1
  | _ :: _, _, [], _, _ => rfl
  | _ :: _, [], _ :: _, _, h2 => by simp [strLess] at h2
  | x :: xs, y :: ys, z :: zs, h1, h2 => by
    simp only [strLess] at h1 h2 ⊢
    by_cases a1 : x.toNat < y.toNat
    · simp [a1] at h1
    · by_cases b1 : y.toNat < z.toNat
      · simp [b1] at h2
      · by_cases a2 : y.toNat < x.toNat
        · have c1 : ¬ x.toNat < z.toNat := by omega
          have c2 : z.toNat < x.toNat := by omega
          simp [c1, c2]
        · by_cases b2 : z.toNat < y.toNat
          · have c1 : ¬ x.toNat < z.toNat := by omega
            have c2 : z.toNat < x.toNat := by omega
            simp [c1, c2]
          · have c1 : ¬ x.toNat < z.toNat := by omega
            have c2 : ¬ z.toNat < x.toNat := by omega
            simp only [a1, a2, b1, b2, c1, c2, if_false] at h1 h2 ⊢
            exact strLess_negtrans xs ys zs h1 h2

theorem lessFiles_asymm (x y : List Char) (h : lessFiles x y = true) : lessFiles y x = false := by
  unfold lessFiles at h ⊢
  cases hx : hasSuffixSeparator x <;> cases hy : hasSuffixSeparator y <;>
    simp [hx, hy] at h ⊢
  exact strLess_asymm x y h

theorem lessFiles_negtrans (x y z : List Char) (h1 : lessFiles x y = false)
    (h2 : lessFiles y z = false) : lessFiles x z = false := by
  unfold lessFiles at h1 h2 ⊢
  cases hx : hasSuffixSeparator x <;> cases hy : hasSuffixSeparator y <;>
    cases hz : hasSuffixSeparator z <;> simp [hx, hy, hz] at h1 h2 ⊢
  exact strLess_negtrans x y z h1 h2

theorem sinkLeft_perm {α : Type} (less : α → α → Bool) (x : α) :
    ∀ run : List α, (sinkLeft less x run).Perm (x :: run)
  | [] => List.Perm.refl _
  | y :: ys => by
    simp only [sinkLeft]
    split_ifs
    · exact ((sinkLeft_perm less x ys).cons y).trans (List.Perm.swap x y ys)
    · exact List.Perm.refl _

theorem sinkLeft_pairwise {α : Type} (less : α → α → Bool)
    (hasymm : ∀ x y, less x y = true → less y x = false)
    (hneg : ∀ x y z, less x y = false → less y z = false → less x z = false) (x : α) :
    ∀ run : List α, run.Pairwise (fun a b => less a b = false) →
      (sinkLeft less x run).Pairwise (fun a b => less a b = false)
  | [], _ => List.pairwise_singleton _ _
  | y :: ys, h => by
    have hy := List.pairwise_cons.mp h
    simp only [sinkLeft]
    by_cases hxy : less x y = true
    · rw [if_pos hxy]
      refine List.pairwise_cons.mpr ⟨?_, sinkLeft_pairwise less hasymm hneg x ys hy.2⟩
      intro w hw
      rcases List.mem_cons.mp ((sinkLeft_perm less x ys).subset hw) with rfl | hw
      · exact hasymm _ _ hxy
      · exact hy.1 w hw
    · rw [if_neg hxy]
      have hxy2 : less x y = false := by simpa using hxy
      refine List.pairwise_cons.mpr ⟨?_, h⟩
      intro w hw
      rcases List.mem_cons.mp hw with rfl | hw
      · exact hxy2
      · exact hneg x y w hxy2 (hy.1 w hw)

theorem foldl_sinkLeft {α : Type} (less : α → α → Bool)
    (hasymm : ∀ x y, less x y = true → less y x = false)
    (hneg : ∀ x y z, less x y = false → less y z = false → less x z = false) :
    ∀ (xs run : List α), run.Pairwise (fun a b => less a b = false) →
      (xs.foldl (fun run x => sinkLeft less x run) run).Perm (run ++ xs) ∧
      (xs.foldl (fun run x => sinkLeft less x run) run).Pairwise (fun a b => less a b = false)
  | [], run, h => by simpa using h
  | x :: xs, run, h => by
    have ih := foldl_sinkLeft less hasymm hneg xs (sinkLeft less x run)
      (sinkLeft_pairwise less hasymm hneg x run h)
    refine ⟨?_, ih.2⟩
    rw [List.foldl_cons]
    refine ih.1.trans ?_
    refine ((sinkLeft_perm less x run).append_right xs).trans ?_
    rw [List.cons_append]
    exact (List.perm_middle).symm

/-- The insertion sort meets the contract of `sort.Slice` for a comparison that
is asymmetric and whose complement is transitive. -/
theorem insertionSort_sorted {α : Type} (less : α → α → Bool)
    (hasymm : ∀ x y, less x y = true → less y x = false)
    (hneg : ∀ x y z, less x y = false → less y z = false → less x z = false)
    (xs : List α) : SortedBy less xs (insertionSort less xs) := by
  have h := foldl_sinkLeft less hasymm hneg xs [] List.Pairwise.nil
  unfold insertionSort SortedBy
  refine ⟨(List.reverse_perm _).trans (by simpa using h.1), ?_⟩
  rw [List.pairwise_reverse]
  exact h.2

/-- So does `sort.Slice`, when the sort it runs on long slices does. -/
theorem sortSlice_sorted {α : Type} (quick : List α → List α) (less : α → α → Bool)
    (hasymm : ∀ x y, less x y = true → less y x = false)
    (hneg : ∀ x y z, less x y = false → less y z = false → less x z = false)
    (hquick : ∀ xs, SortedBy less xs (quick xs))
    (xs : List α) : SortedBy less xs (sortSlice quick less xs) := by
  unfold sortSlice
  split_ifs
  · exact insertionSort_sorted less hasymm hneg xs
  · exact hquick xs

/-- In a list sorted by `lessFiles`, the names that end with the separator come
first. -/
theorem sorted_split : ∀ l : List (List Char),
    l.Pairwise (fun x y => lessFiles y x = false) →
    l = l.filter hasSuffixSeparator ++ l.filter (fun x => !hasSuffixSeparator x)
  | [], _ => rfl
  | x :: t, h => by
    have hx := List.pairwise_cons.mp h
    have ih := sorted_split t hx.2
    cases hs : hasSuffixSeparator x
    · have hall : ∀ y ∈ t, hasSuffixSeparator y = false := by
        intro y hy
        have := hx.1 y hy
        unfold lessFiles at this
        cases hy2 : hasSuffixSeparator y
        · rfl
        · simp [hs, hy2] at this
      have h1 : t.filter hasSuffixSeparator = [] := by
        apply List.filter_eq_nil_iff.mpr
        intro y hy
        simp [hall y hy]
      have h2 : t.filter (fun x => !hasSuffixSeparator x) = t := by
        apply List.filter_eq_self.mpr
        intro y hy
        simp [hall y hy]
      simp [List.filter_cons, hs, h1, h2]
    · simp only [List.filter_cons, hs, if_true, Bool.not_true, List.cons_append]
      simp only [Bool.false_eq_true, if_false]
      rw [← ih]

/-- What the order of the listing amounts to for any sort that meets the
contract of `sort.Slice` with the comparison `lessFiles`: the names that end
with the separator come first and are in ascending order. -/
theorem listing_of_sorted (input output : List (List Char))
    (h : SortedBy lessFiles input output) :
    output.Perm input ∧
    ∃ dirs files : List (List Char),
      output = dirs ++ files ∧
      (∀ d ∈ dirs, hasSuffixSeparator d = true) ∧
      (∀ f ∈ files, hasSuffixSeparator f = false) ∧
      Ascending dirs := by
  refine ⟨h.1, output.filter hasSuffixSeparator,
    output.filter (fun x => !hasSuffixSeparator x), sorted_split output h.2, ?_, ?_, ?_⟩
  · intro d hd
    exact (List.mem_filter.mp hd).2
  · intro f hf
    simpa using (List.mem_filter.mp hf).2
  · unfold Ascending
    have hsub : (output.filter hasSuffixSeparator).Pairwise (fun x y => lessFiles y x = false) :=
      h.2.sublist (List.filter_sublist _)
    refine (List.pairwise_iff_forall_sublist.mpr ?_)
    intro x y hxy
    have hx : hasSuffixSeparator x = true :=
      (List.mem_filter.mp (hxy.subset (by simp))).2
    have hy : hasSuffixSeparator y = true :=
      (List.mem_filter.mp (hxy.subset (by simp))).2
    have := List.pairwise_iff_forall_sublist.mp hsub hxy
    simpa [lessFiles, hx, hy] using this

theorem sortSlice_short {α : Type} (quick : List α → List α) (less : α → α → Bool)
    (xs : List α) (h : xs.length ≤ insertionLimit) :
    sortSlice quick less xs = insertionSort less xs := if_pos h

/-- The comparison orders no file name before another name: two files compare
equal, so `sort.Slice`, which is not stable, is free to leave them in any
order. -/
theorem lessFiles_file (x y : List Char) (hx : hasSuffixSeparator x = false) :
    lessFiles x y = false := by
  unfold lessFiles
  cases hy : hasSuffixSeparator y <;> simp [hx, hy]

/-- On the example of the specification, read in the order `os.ReadDir` returns
it, the listing is the one the specification describes. -/
theorem listing_example (quick : List (List Char) → List (List Char)) :
    ∃ b, App.zero.loadDir quick (.ok exampleEntries) = .ok b ∧
      b.files = ["../".data, "a/".data, "c/".data, "a.txt".data, "b.txt".data] := by
  refine ⟨_, rfl, ?_⟩
  show sortSlice quick lessFiles
    (("..".data ++ separator) :: exampleEntries.map DirEntry.listed) = _
  rw [sortSlice_short quick lessFiles _ (by decide)]
  decide

/-- C9. The listing order of the specification does not hold of the code. A
directory that holds the one directory `-x` is read as the one entry `-x`;
`loadDir` puts the parent entry first (line 245) and then sorts it with the
directories, and the listing is `-x/`, `../`: the parent entry is not first,
and the listing is not the one the specification describes. The listing has
two elements, so the sort is the insertion sort whatever the library runs on
long slices. -/
theorem listing_parent_not_first (quick : List (List Char) → List (List Char)) :
    ∃ b, App.zero.loadDir quick (.ok [⟨"-x".data, true⟩]) = .ok b ∧
      b.files = ["-x/".data, "../".data] ∧
      ¬ SpecListing [⟨"-x".data, true⟩] b.files := by
  have hfiles : sortSlice quick lessFiles
      (("..".data ++ separator) :: [(⟨"-x".data, true⟩ : DirEntry)].map DirEntry.listed)
      = ["-x/".data, "../".data] := by
    rw [sortSlice_short quick lessFiles _ (by decide)]
    decide
  refine ⟨_, rfl, hfiles, ?_⟩
  rintro ⟨dirs, files, hlist, -, -, -, -⟩
  have hl : (["-x/".data, "../".data] : List (List Char))
      = ("..".data ++ separator) :: (dirs ++ files) := hfiles.symm.trans hlist
  have := (List.cons.injEq _ _ _ _ ▸ hl).1
  revert this
  decide

/-- What the code does guarantee of the listing, for a library sort that meets
the contract of `sort.Slice` on long slices: it is a rearrangement of the
parent entry and the names read, the names that end with the separator (the
parent entry among them) come first and are in ascending order. -/
theorem listing_order (a : App) (quick : List (List Char) → List (List Char))
    (hquick : ∀ xs, SortedBy lessFiles xs (quick xs)) (fs : List DirEntry) :
    ∃ b, a.loadDir quick (.ok fs) = .ok b ∧
      b.files.Perm (("..".data ++ separator) :: fs.map DirEntry.listed) ∧
      ∃ dirs files : List (List Char),
        b.files = dirs ++ files ∧
        ("..".data ++ separator) ∈ dirs ∧
        (∀ d ∈ dirs, hasSuffixSeparator d = true) ∧
        (∀ f ∈ files, hasSuffixSeparator f = false) ∧
        Ascending dirs := by
  have hs := sortSlice_sorted quick lessFiles lessFiles_asymm lessFiles_negtrans hquick
    (("..".data ++ separator) :: fs.map DirEntry.listed)
  obtain ⟨hperm, dirs, files, hsplit, hd, hf, hasc⟩ := listing_of_sorted _ _ hs
  refine ⟨_, rfl, hperm, dirs, files, hsplit, ?_, hd, hf, hasc⟩
  have hmem : ("..".data ++ separator) ∈ dirs ++ files := by
    rw [← hsplit]
    exact hperm.symm.subset (by simp)
  rcases List.mem_append.mp hmem with h | h
  · exact h
  · have hfile : hasSuffixSeparator ("..".data ++ separator) = false := hf _ h
    exact absurd hfile (by decide)

/-! ## Process sessions -/

/-- C6. Session supersession does not hold of the code. In the first schedule the
standard output reader of session 1 passes the test at the top of its loop and
is inside `Read` when `termRun` starts session 2; `Read` then returns the chunk
`late` and the reader writes it to the transcript without testing again. In the
second schedule `Read` returns end-of-stream instead: the reader sets `termCmd`
to `nil`, and writes the error of `Wait` and a prompt. Both are writes of a
reader of session 1 after session 2 was started. -/
theorem superseded_reader_writes :
    (Sessions.init.steps
        [.termRun 1, .test 1 .stdout, .termRun 2,
         .readReturns 1 .stdout "late".data false, .handle 1 .stdout]).map
      (fun s => (s.termCmd, lateWrites s.log))
      = some (some 2, [.wrote 1 .stdout "late".data]) ∧
    (Sessions.init.steps
        [.termRun 1, .test 1 .stdout, .termRun 2,
         .readReturns 1 .stdout [] true, .handle 1 .stdout,
         .waitReturns 1 (some "signal: interrupt".data), .writePrompt 1]).map
      (fun s => (s.termCmd, lateWrites s.log))
      = some (none, [.wrote 1 .stdout "signal: interrupt\n".data,
                     .wrote 1 .stdout "$ ".data]) := by
  constructor <;> decide

end Nerved
